import Mathlib

/-!
Shallow embedding of `present_perfect_quiz.py` (an interactive grammar-quiz
CLI) together with proofs about its answer normalization, score aggregation,
set running, retry and persistence logic.

Modelling conventions:
* Python strings are `List Char` (`Str` below); `str.lower()` is modelled by
  its ASCII case table applied characterwise.
* Python `float` division `s / t` inside `get_last_and_best` is modelled by
  exact rational division; a zero divisor is modelled as an exception
  (`Except Unit`), mirroring Python's `ZeroDivisionError`.
* Interactive input is a parameter: an answer oracle for set running, and a
  list of typed lines for the multiple-choice prompt loop.
* `random.shuffle` is modelled by passing the shuffled ordering as an
  explicit parameter (a nondeterministic outcome of the permutation).
* The score file is a state value threaded explicitly; `json` parse results
  are modelled by a small file-state type.
-/

namespace Quiz

/-- Python strings, modelled as lists of characters. -/
abbrev Str := List Char

/-- The whitespace characters recognised by Python's `str.split()` /
`str.strip()` (ASCII portion): space, tab, newline, carriage return,
vertical tab, form feed. -/
def isPySpace (c : Char) : Bool :=
  c = ' ' || c = '\t' || c = '\n' || c = '\r' || c = Char.ofNat 11 || c = Char.ofNat 12

/-- The ASCII case table of Python's `str.lower()`. -/
def asciiLowerTable : List (Char × Char) :=
  [('A', 'a'), ('B', 'b'), ('C', 'c'), ('D', 'd'), ('E', 'e'), ('F', 'f'),
   ('G', 'g'), ('H', 'h'), ('I', 'i'), ('J', 'j'), ('K', 'k'), ('L', 'l'),
   ('M', 'm'), ('N', 'n'), ('O', 'o'), ('P', 'p'), ('Q', 'q'), ('R', 'r'),
   ('S', 's'), ('T', 't'), ('U', 'u'), ('V', 'v'), ('W', 'w'), ('X', 'x'),
   ('Y', 'y'), ('Z', 'z')]

/-- Python's `str.lower()` on one character (ASCII case table). -/
def lowerChar (c : Char) : Char :=
  ((asciiLowerTable.find? (fun p => p.1 == c)).map Prod.snd).getD c

/-- Python `s.lower()` on a whole string. -/
def strLower (s : Str) : Str := s.map lowerChar

/-- Python `s.strip()`: drop leading and trailing whitespace. -/
def pyStrip (s : Str) : Str :=
  ((s.dropWhile isPySpace).reverse.dropWhile isPySpace).reverse

/-- Python `s.split()` (no separator argument): the maximal runs of
non-whitespace characters, in order; leading/trailing/repeated whitespace
yields no empty words. -/
def pySplit : Str → List Str
  | [] => []
  | c :: cs =>
    if isPySpace c then pySplit cs
    else (c :: cs.takeWhile (fun d => !isPySpace d)) ::
      pySplit (cs.dropWhile (fun d => !isPySpace d))
termination_by s => s.length
decreasing_by
  · simp only [List.length_cons]; omega
  · simp only [List.length_cons]
    have := (List.dropWhile_sublist (l := cs) (fun d => !isPySpace d)).length_le
    omega

/-- Python `" ".join(words)`. -/
def joinSpace : List Str → Str
  | [] => []
  | [w] => w
  | w :: ws => w ++ ' ' :: joinSpace ws

/-- Python `normalize_answer(s)`: `" ".join(s.strip().lower().split())` —
strip, lower, and collapse internal whitespace runs to single spaces. -/
def normalize_answer (s : Str) : Str :=
  joinSpace (pySplit (strLower (pyStrip s)))

/-- Python `answer_matches(user_answer, accepted_answers)`: the normalized user
answer equals the normalization of some accepted answer. -/
def answer_matches (user_answer : Str) (accepted_answers : List Str) : Bool :=
  accepted_answers.any (fun accepted =>
    normalize_answer user_answer == normalize_answer accepted)

/-! ## Score history: `load_scores`, `save_score`, `get_last_and_best` -/

/-- One persisted score record, as written by `save_score`. -/
structure Entry where
  set_id : String
  set_title : String
  score : Int
  total : Int
  date : String
deriving DecidableEq, Repr

/-- State of the `scores.json` file as seen by `json.load`: the file may be
absent, unreadable or syntactically invalid JSON (both caught by
`load_scores`), or a parsed document — which holds a `history` list or
lacks the key (then `data.get("history", [])` defaults to `[]`). -/
inductive ScoresFile where
  | missing
  | corrupt
  | parsed (history : Option (List Entry))
deriving DecidableEq

/-- Loading scores, `load_scores()`: `[]` when the file is missing; `[]` when reading or
JSON-decoding raises (`except (json.JSONDecodeError, IOError)`); otherwise
`data.get("history", [])`. -/
def load_scores : ScoresFile → List Entry
  | .missing => []
  | .corrupt => []
  | .parsed h => h.getD []

/-- Saving a score, `save_score(set_id, set_title, score, total)`: reload the history and
append one new record (`date` is the current timestamp, passed in here).
The returned list is what `json.dump` then persists as the whole file. -/
def save_score (file : ScoresFile) (set_id set_title : String)
    (score total : Int) (date : String) : List Entry :=
  load_scores file ++ [⟨set_id, set_title, score, total, date⟩]

/-- Python `s / t` on ints (true division), modelled exactly over `ℚ`
(`Rat.divInt s t` is the rational `s / t`); `t = 0` raises
`ZeroDivisionError`, modelled as `Except.error`. -/
def pyDiv (s t : Int) : Except Unit ℚ :=
  if t = 0 then .error () else .ok (Rat.divInt s t)

/-- The per-key record built by `get_last_and_best`:
`{"last": ..., "best": ...}` with `None` as `none`. -/
structure LB where
  last : Option (Int × Int)
  best : Option (Int × Int)
deriving DecidableEq, Repr

/-- One iteration of the history loop in `get_last_and_best` on the record
of the entry's key: set `last`, and replace `best` when it is `None`
(short-circuiting `or`: no division happens) or when the strict ratio
comparison `(s / t) > (best_s / best_t)` holds — Python evaluates `s / t`
first, then the best entry's ratio, either division may raise. -/
def stepLB (st : LB) (s t : Int) : Except Unit LB :=
  match st.best with
  | none => .ok ⟨some (s, t), some (s, t)⟩
  | some (bs, bt) => do
    let r ← pyDiv s t
    let br ← pyDiv bs bt
    if br < r then pure ⟨some (s, t), some (s, t)⟩
    else pure ⟨some (s, t), st.best⟩

/-- Look a key up in the result dict (modelled as an association list). -/
def lookupLB (m : List (String × LB)) (k : String) : Option LB :=
  (m.find? (fun p => p.1 == k)).map Prod.snd

/-- Assignment `result[sid] = v` for a key already present. -/
def updateLB (m : List (String × LB)) (k : String) (v : LB) :
    List (String × LB) :=
  m.map (fun p => if p.1 == k then (k, v) else p)

/-- The body of one iteration of the history loop of `get_last_and_best`,
on a dict already containing the entry's key: read `result[sid]`, step it,
and write it back. -/
def gstepAux (m : List (String × LB)) (e : Entry) :
    Except Unit (List (String × LB)) :=
  match lookupLB m e.set_id with
  | none => .error ()
  | some st => do
    let st' ← stepLB st e.score e.total
    pure (updateLB m e.set_id st')

/-- One iteration of the history loop of `get_last_and_best`: insert the
entry's key with an empty record if absent, then update that record via
`stepLB`. -/
def gstep (m : List (String × LB)) (e : Entry) :
    Except Unit (List (String × LB)) :=
  gstepAux (if (lookupLB m e.set_id).isSome then m
            else m ++ [(e.set_id, ⟨none, none⟩)]) e

/-- Score aggregation, `get_last_and_best(sets_data)`: initialise a record for every set key
plus `"all"`, then scan the whole history in stored order. The history list
is what `load_scores()` returned; a `ZeroDivisionError` aborts the whole
call (`Except.error`). -/
def get_last_and_best (keys : List String) (history : List Entry) :
    Except Unit (List (String × LB)) :=
  history.foldlM gstep ((keys ++ ["all"]).map (fun k => (k, ⟨none, none⟩)))

/-! ## Set running, retry, multiple-choice prompting -/

/-- The answer loop shared by `run_set` and `run_practice_section`:
question `i` (0-based, as-run order) is judged by the oracle
`ans i q` — the verdict `ask_mc_question`/`ask_open_question` returns for
the user's input. Returns `(score, wrong_indices)`. -/
def runQuestions {Q : Type} (ans : Nat → Q → Bool) : Nat → List Q → Nat × List Nat
  | _, [] => (0, [])
  | i, q :: rest =>
    let r := runQuestions ans (i + 1) rest
    if ans i q then (r.1 + 1, r.2) else (r.1, i :: r.2)

/-- Running a set, `run_set(questions, title, shuffle, max_questions)`: copy the list,
optionally shuffle (the shuffled ordering is the parameter `perm`, an
arbitrary outcome of `random.shuffle`), truncate to `max_questions` when
that is given and smaller than the length, then ask each question in
order. Returns `(score, total, wrong_indices, questions_used)`. -/
def run_set {Q : Type} (questions : List Q) (shuffle : Bool) (perm : List Q)
    (max_questions : Option Nat) (ans : Nat → Q → Bool) :
    Nat × Nat × List Nat × List Q :=
  let qs := if shuffle then perm else questions
  let qs := match max_questions with
    | some m => if m < qs.length then qs.take m else qs
    | none => qs
  let total := qs.length
  let (score, wrong) := runQuestions ans 0 qs
  (score, total, wrong, qs)

/-- Practice sections, `run_practice_section(section_title, questions)`: the same loop with no
shuffling or truncation. Returns `(score, total, wrong_indices, qs)`. -/
def run_practice_section {Q : Type} (questions : List Q)
    (ans : Nat → Q → Bool) : Nat × Nat × List Nat × List Q :=
  let qs := questions
  let total := qs.length
  let (score, wrong) := runQuestions ans 0 qs
  (score, total, wrong, qs)

/-- Retrying, `retry_wrong(questions_list, wrong_indices, title)`: nothing to do on an
empty index list; otherwise re-present `questions_list[i]` for each `i` in
`wrong_indices`, in that order (`none` models the `IndexError` an invalid
index would raise). The function never saves a score, so the history state
passes through unchanged. -/
def retry_wrong {Q : Type} (history : List Entry) (questions_list : List Q)
    (wrong_indices : List Nat) : Option (List Q × List Entry) :=
  if wrong_indices.isEmpty then some ([], history)
  else do
    let to_retry ← wrong_indices.mapM (fun i => questions_list[i]?)
    pure (to_retry, history)

/-- A multiple-choice question record: option list (label, text) in display
order, the correct label, and the explanation. -/
structure MCQ where
  question : Str
  options : List (Str × Str)
  correct_option : Str
  explanation : Str

/-- The re-prompt loop of `ask_mc_question`: read a line, strip and
lowercase it, stop when it is one of the option labels, else print the
hint and repeat. `inputs` is the stream of lines the user types; `none`
means the user never supplies an accepted line (the loop does not
terminate). Returns the accepted (stripped, lowered) choice and the lines
printed while re-prompting. -/
def mcPromptLoop (q : MCQ) : List Str → Option (Str × List Str)
  | [] => none
  | inp :: rest =>
    let u := strLower (pyStrip inp)
    if q.options.any (fun p => p.1 == u) then some (u, [])
    else
      match mcPromptLoop q rest with
      | none => none
      | some (choice, outs) =>
        some (choice, "Please type a, b, c, or d.".toList :: outs)

/-- Judging in `ask_mc_question(q, ...)` after the prompt loop accepts a `choice`:
correct iff `choice == correct_option` exactly; on a wrong answer the text
of the correct option is looked up (a missing key raises, modelled `none`);
the explanation line is printed last in both branches. Returns
`(is_correct, choice, lines printed after the loop)`. -/
def mcJudge (q : MCQ) (choice : Str) : Option (Bool × Str × List Str) :=
  if choice == q.correct_option then
    some (true, choice, ["✅ Correct!".toList,
      "Explanation: ".toList ++ q.explanation])
  else
    match q.options.find? (fun p => p.1 == q.correct_option) with
    | none => none
    | some (_, ctext) =>
      some (false, choice,
        ["❌ Incorrect. Correct answer: ".toList ++ q.correct_option
          ++ (") ".toList ++ ctext),
         "Explanation: ".toList ++ q.explanation])

/-- Asking `ask_mc_question(q, question_num, total)` given the user's input lines:
run the prompt loop, then judge and print. `none` when the loop never
terminates or the correct-option lookup raises. -/
def ask_mc_question (q : MCQ) (inputs : List Str) :
    Option (Bool × Str × List Str) :=
  match mcPromptLoop q inputs with
  | none => none
  | some (choice, reprompts) =>
    match mcJudge q choice with
    | none => none
    | some (ok, c, lines) => some (ok, c, reprompts ++ lines)

/-! ## Auxiliary notions used in statements -/

/-- The score/total ratio of an entry, as an exact rational. -/
def entryRatio (e : Entry) : ℚ := (e.score : ℚ) / (e.total : ℚ)

/-- The per-key best/last fold: what the history loop of
`get_last_and_best` does to the record of one fixed key, over the
subsequence of entries carrying that key. -/
def bestFold (init : LB) (l : List Entry) : Except Unit LB :=
  l.foldlM (fun st e => stepLB st e.score e.total) init

/-- A word produced by `pySplit`: nonempty, no whitespace characters. -/
def IsWord (w : Str) : Prop := w ≠ [] ∧ ∀ c ∈ w, isPySpace c = false

/-! ## Theorems -/

/-- C1: for every user answer `u` and accepted-answer list `A`,
`answer_matches u A` is true iff the normalization of `u` equals the
normalization of some entry of `A` — matching is equality of normal forms
(no fuzzy or edit-distance matching) — and in particular
`answer_matches("  Yes   please", ["yes please"])` is true. -/
theorem answer_matches_spec :
    (∀ (u : Str) (A : List Str),
      answer_matches u A = true ↔
        ∃ a ∈ A, normalize_answer u = normalize_answer a) ∧
    answer_matches "  Yes   please".toList ["yes please".toList] = true := by
  constructor
  · intro u A
    simp [answer_matches, List.any_eq_true, beq_iff_eq]
  · have h1 : strLower (pyStrip
        [' ', ' ', 'Y', 'e', 's', ' ', ' ', ' ', 'p', 'l', 'e', 'a', 's', 'e'])
        = ['y', 'e', 's', ' ', ' ', ' ', 'p', 'l', 'e', 'a', 's', 'e'] := by
      decide
    have h2 : pySplit ['y', 'e', 's', ' ', ' ', ' ', 'p', 'l', 'e', 'a', 's', 'e']
        = [['y', 'e', 's'], ['p', 'l', 'e', 'a', 's', 'e']] := by
      simp [pySplit, isPySpace]
    have h3 : strLower (pyStrip ['y', 'e', 's', ' ', 'p', 'l', 'e', 'a', 's', 'e'])
        = ['y', 'e', 's', ' ', 'p', 'l', 'e', 'a', 's', 'e'] := by
      decide
    have h4 : pySplit ['y', 'e', 's', ' ', 'p', 'l', 'e', 'a', 's', 'e']
        = [['y', 'e', 's'], ['p', 'l', 'e', 'a', 's', 'e']] := by
      simp [pySplit, isPySpace]
    simp [answer_matches, normalize_answer, h1, h2, h3, h4]

/-- C6: score history is append-only — saving against a prior history `H`
produces exactly `H` followed by one new entry built from the arguments and
the timestamp; the prior entries survive unchanged, in order. -/
theorem save_score_append (H : List Entry) (sid title : String)
    (score total : Int) (date : String) :
    save_score (.parsed (some H)) sid title score total date
        = H ++ [⟨sid, title, score, total, date⟩] ∧
    (save_score (.parsed (some H)) sid title score total date).dropLast = H ∧
    (save_score (.parsed (some H)) sid title score total date).getLast?
        = some ⟨sid, title, score, total, date⟩ := by
  refine ⟨rfl, ?_, ?_⟩ <;> simp [save_score, load_scores]

/-- C8: loading the score history never aborts — a missing file and a
corrupt/unreadable one both load as the empty history, and a well-formed
file yields exactly its stored history list. -/
theorem load_scores_total :
    load_scores .missing = [] ∧ load_scores .corrupt = [] ∧
    ∀ H : List Entry, load_scores (.parsed (some H)) = H :=
  ⟨rfl, rfl, fun _ => rfl⟩

/-- C3 (failing evaluation): the ratio comparison in `get_last_and_best`
has no guard for `total = 0` — on a history whose first entry for a key
has `total = 0`, processing a second entry for that key divides by zero
(`ZeroDivisionError`), so the whole computation aborts. -/
theorem get_last_and_best_div_zero :
    get_last_and_best ["s1"]
      [⟨"s1", "T", 0, 0, "d1"⟩, ⟨"s1", "T", 1, 1, "d2"⟩] = .error () := by
  rfl

/-- Invariant of the shared answer loop: starting at index `i`, the score
plus the number of recorded wrong indices equals the number of questions,
the wrong indices are strictly increasing, and each lies in
`[i, i + length)`. -/
theorem runQuestions_spec {Q : Type} (ans : Nat → Q → Bool) :
    ∀ (l : List Q) (i : Nat),
      (runQuestions ans i l).1 + (runQuestions ans i l).2.length = l.length ∧
      List.Pairwise (· < ·) (runQuestions ans i l).2 ∧
      ∀ j ∈ (runQuestions ans i l).2, i ≤ j ∧ j < i + l.length := by
  intro l
  induction l with
  | nil => intro i; simp [runQuestions]
  | cons q rest ih =>
    intro i
    obtain ⟨h1, h2, h3⟩ := ih (i + 1)
    by_cases h : ans i q
    · simp only [runQuestions, h, if_true, List.length_cons]
      refine ⟨by omega, h2, fun j hj => ?_⟩
      have := h3 j hj
      omega
    · simp only [runQuestions, h, if_false, List.length_cons]
      refine ⟨by simp; omega, ?_, fun j hj => ?_⟩
      · exact List.Pairwise.cons (fun j hj => by have := h3 j hj; omega) h2
      · rcases List.mem_cons.mp hj with rfl | hj
        · omega
        · have := h3 j hj
          omega

/-- C10: in both `run_set` and `run_practice_section`, `score` plus the
number of wrong indices equals `total`, `score` is between `0` and
`total`, the wrong indices are strictly increasing, every wrong index is a
valid position (< `total`), and the returned as-run list has length
`total` — each presented question is counted exactly once. -/
theorem runner_counts_once {Q : Type} (questions perm : List Q) (sh : Bool)
    (maxq : Option Nat) (ans : Nat → Q → Bool) :
    ((run_set questions sh perm maxq ans).1
        + (run_set questions sh perm maxq ans).2.2.1.length
        = (run_set questions sh perm maxq ans).2.1
      ∧ (run_set questions sh perm maxq ans).1
        ≤ (run_set questions sh perm maxq ans).2.1
      ∧ List.Pairwise (· < ·) (run_set questions sh perm maxq ans).2.2.1
      ∧ (∀ j ∈ (run_set questions sh perm maxq ans).2.2.1,
          j < (run_set questions sh perm maxq ans).2.1)
      ∧ (run_set questions sh perm maxq ans).2.2.2.length
        = (run_set questions sh perm maxq ans).2.1)
    ∧ ((run_practice_section questions ans).1
        + (run_practice_section questions ans).2.2.1.length
        = (run_practice_section questions ans).2.1
      ∧ (run_practice_section questions ans).1
        ≤ (run_practice_section questions ans).2.1
      ∧ List.Pairwise (· < ·) (run_practice_section questions ans).2.2.1
      ∧ (∀ j ∈ (run_practice_section questions ans).2.2.1,
          j < (run_practice_section questions ans).2.1)
      ∧ (run_practice_section questions ans).2.2.2.length
        = (run_practice_section questions ans).2.1) := by
  have key : ∀ (qs : List Q),
      (runQuestions ans 0 qs).1 + (runQuestions ans 0 qs).2.length = qs.length
      ∧ (runQuestions ans 0 qs).1 ≤ qs.length
      ∧ List.Pairwise (· < ·) (runQuestions ans 0 qs).2
      ∧ ∀ j ∈ (runQuestions ans 0 qs).2, j < qs.length := by
    intro qs
    obtain ⟨h1, h2, h3⟩ := runQuestions_spec ans qs 0
    exact ⟨h1, by omega, h2, fun j hj => by have := h3 j hj; omega⟩
  constructor
  · obtain ⟨h1, h2, h3, h4⟩ :=
      key (match maxq with
        | some m =>
          if m < (if sh then perm else questions).length
          then (if sh then perm else questions).take m
          else (if sh then perm else questions)
        | none => (if sh then perm else questions))
    exact ⟨h1, h2, h3, h4, rfl⟩
  · obtain ⟨h1, h2, h3, h4⟩ := key questions
    exact ⟨h1, h2, h3, h4, rfl⟩

/-- Unfolding: `run_set` is the answer loop applied to some ordering `qs` (the
shuffled/truncated list), with `total` its length and `qs` returned. -/
theorem run_set_eq {Q : Type} (questions perm : List Q) (sh : Bool)
    (maxq : Option Nat) (ans : Nat → Q → Bool) :
    ∃ qs : List Q, run_set questions sh perm maxq ans
      = ((runQuestions ans 0 qs).1, qs.length, (runQuestions ans 0 qs).2, qs) :=
  ⟨_, rfl⟩

/-- C4: with `max_questions = N < len(questions)`, `run_set` presents
exactly the first `N` questions of the (possibly shuffled) ordering and
returns `total = N`; with `max_questions` absent or `N ≥ len(questions)`,
the whole ordering is presented and `total = len(questions)`. `perm` is
the outcome of `random.shuffle`, a permutation of the input list. -/
theorem run_set_max_questions {Q : Type} (questions perm : List Q) (sh : Bool)
    (ans : Nat → Q → Bool) (N : Nat) (hperm : perm.Perm questions) :
    (N < questions.length →
      (run_set questions sh perm (some N) ans).2.1 = N ∧
      (run_set questions sh perm (some N) ans).2.2.2
        = (if sh then perm else questions).take N) ∧
    (questions.length ≤ N →
      (run_set questions sh perm (some N) ans).2.1 = questions.length ∧
      (run_set questions sh perm (some N) ans).2.2.2
        = (if sh then perm else questions)) ∧
    ((run_set questions sh perm none ans).2.1 = questions.length ∧
      (run_set questions sh perm none ans).2.2.2
        = (if sh then perm else questions)) := by
  have hlen : (if sh then perm else questions).length = questions.length := by
    cases sh <;> simp [hperm.length_eq]
  refine ⟨fun hN => ?_, fun hN => ?_, ?_⟩
  · have ht : N < (if sh then perm else questions).length := by omega
    simp only [run_set, ht, if_true]
    refine ⟨?_, trivial⟩
    simp [List.length_take]
    omega
  · have ht : ¬ N < (if sh then perm else questions).length := by omega
    simp only [run_set, ht, if_false]
    exact ⟨hlen, trivial⟩
  · simp only [run_set]
    exact ⟨hlen, trivial⟩

/-- Witness for C4 at a concrete input: three questions, shuffled to
`[30, 10, 20]`, truncated to the first two. -/
theorem run_set_max_questions_witness :
    (([30, 10, 20] : List Nat).Perm [10, 20, 30]) ∧
    ((2 < ([10, 20, 30] : List Nat).length →
      (run_set [10, 20, 30] true [30, 10, 20] (some 2) (fun _ _ => true)).2.1
          = 2 ∧
      (run_set [10, 20, 30] true [30, 10, 20] (some 2)
          (fun _ _ => true)).2.2.2
        = (if true then [30, 10, 20] else [10, 20, 30]).take 2) ∧
    (([10, 20, 30] : List Nat).length ≤ 2 →
      (run_set [10, 20, 30] true [30, 10, 20] (some 2) (fun _ _ => true)).2.1
          = ([10, 20, 30] : List Nat).length ∧
      (run_set [10, 20, 30] true [30, 10, 20] (some 2)
          (fun _ _ => true)).2.2.2
        = (if true then [30, 10, 20] else [10, 20, 30])) ∧
    ((run_set [10, 20, 30] true [30, 10, 20] none (fun _ _ => true)).2.1
        = ([10, 20, 30] : List Nat).length ∧
      (run_set [10, 20, 30] true [30, 10, 20] none
          (fun _ _ => true)).2.2.2
        = (if true then [30, 10, 20] else [10, 20, 30]))) :=
  ⟨by decide,
    run_set_max_questions [10, 20, 30] [30, 10, 20] true (fun _ _ => true) 2
      (by decide)⟩

/-- If every index in `w` is a valid position of `l`, indexing through the
`Option` monad returns exactly the indexed elements, in the order of `w`. -/
theorem mapM_getElem {Q : Type} [Inhabited Q] (l : List Q) :
    ∀ w : List Nat, (∀ i ∈ w, i < l.length) →
      w.mapM (fun i => l[i]?) = some (w.map (fun i => l.getD i default)) := by
  intro w
  induction w with
  | nil => intro _; rfl
  | cons i w ih =>
    intro hw
    have hi : i < l.length := hw i (List.mem_cons_self i w)
    have h1 : l[i]? = some (l.getD i default) := by
      rw [List.getElem?_eq_getElem hi]
      rw [List.getD_eq_getElem l default hi]
    rw [List.mapM_cons, h1, ih (fun j hj => hw j (List.mem_cons_of_mem i hj))]
    rfl

/-- C5: every wrong index the runner records is a valid position of the
returned as-run list, and `retry_wrong` re-presents exactly the questions
at those indices, in the order recorded (their original relative order),
while passing the score history through unchanged — no entry is saved. -/
theorem retry_wrong_exact {Q : Type} [Inhabited Q] (hist : List Entry)
    (questions perm : List Q) (sh : Bool) (maxq : Option Nat)
    (ans : Nat → Q → Bool) :
    (∀ i ∈ (run_set questions sh perm maxq ans).2.2.1,
        i < (run_set questions sh perm maxq ans).2.2.2.length) ∧
    retry_wrong hist (run_set questions sh perm maxq ans).2.2.2
        (run_set questions sh perm maxq ans).2.2.1
      = some ((run_set questions sh perm maxq ans).2.2.1.map
            (fun i => (run_set questions sh perm maxq ans).2.2.2.getD i default),
          hist) := by
  obtain ⟨qs, hq⟩ := run_set_eq questions perm sh maxq ans
  have hvalid : ∀ i ∈ (run_set questions sh perm maxq ans).2.2.1,
      i < (run_set questions sh perm maxq ans).2.2.2.length := by
    rw [hq]
    intro i hi
    have h := (runQuestions_spec ans qs 0).2.2 i hi
    simp only []
    omega
  refine ⟨hvalid, ?_⟩
  unfold retry_wrong
  by_cases he : (run_set questions sh perm maxq ans).2.2.1.isEmpty
  · rw [if_pos he]
    rw [List.isEmpty_iff] at he
    rw [he]
    rfl
  · rw [if_neg he]
    rw [mapM_getElem _ _ hvalid]
    rfl

/-- Lowering a character twice is the same as lowering it once. -/
theorem lowerChar_idem (c : Char) : lowerChar (lowerChar c) = lowerChar c := by
  have tbl : ∀ p ∈ asciiLowerTable, lowerChar p.2 = p.2 := by decide
  cases h : asciiLowerTable.find? (fun p => p.1 == c) with
  | none =>
    have hc : lowerChar c = c := by unfold lowerChar; rw [h]; rfl
    rw [hc, hc]
  | some p =>
    have hc : lowerChar c = p.2 := by unfold lowerChar; rw [h]; rfl
    rw [hc]
    exact tbl p (List.mem_of_find?_eq_some h)

/-- Lowering a character does not change whether it is whitespace. -/
theorem isPySpace_lowerChar (c : Char) : isPySpace (lowerChar c) = isPySpace c := by
  have tbl : ∀ p ∈ asciiLowerTable, isPySpace p.2 = isPySpace p.1 := by decide
  cases h : asciiLowerTable.find? (fun p => p.1 == c) with
  | none =>
    have hc : lowerChar c = c := by unfold lowerChar; rw [h]; rfl
    rw [hc]
  | some p =>
    have hc : lowerChar c = p.2 := by unfold lowerChar; rw [h]; rfl
    have h2 : p.1 = c := by
      have := List.find?_some h
      simpa [beq_iff_eq] using this
    rw [hc, tbl p (List.mem_of_find?_eq_some h), h2]

/-- On an all-satisfying list, `takeWhile` is the identity. -/
theorem takeWhile_eq_self_of_all {α : Type} (p : α → Bool) (l : List α)
    (h : ∀ a ∈ l, p a = true) : l.takeWhile p = l := by
  have h1 := List.takeWhile_append_dropWhile p l
  rw [List.dropWhile_eq_nil_iff.mpr h] at h1
  simpa using h1

/-- On an all-whitespace list, taking non-whitespace yields nothing. -/
theorem takeWhile_not_space_nil (sp : Str)
    (hsp : ∀ c ∈ sp, isPySpace c = true) :
    sp.takeWhile (fun d => !isPySpace d) = [] := by
  cases sp with
  | nil => rfl
  | cons c cs =>
    have : ¬ ((!isPySpace c) = true) := by
      simp [hsp c (List.mem_cons_self c cs)]
    exact List.takeWhile_cons_of_neg this

/-- On an all-whitespace list, dropping non-whitespace drops nothing. -/
theorem dropWhile_not_space_self (sp : Str)
    (hsp : ∀ c ∈ sp, isPySpace c = true) :
    sp.dropWhile (fun d => !isPySpace d) = sp := by
  cases sp with
  | nil => rfl
  | cons c cs =>
    have : ¬ ((!isPySpace c) = true) := by
      simp [hsp c (List.mem_cons_self c cs)]
    exact List.dropWhile_cons_of_neg this

/-- Every word `pySplit` returns is nonempty and whitespace-free, and its
characters come from the input. -/
theorem pySplit_words (s : Str) :
    ∀ w ∈ pySplit s, IsWord w ∧ ∀ c ∈ w, c ∈ s := by
  induction s using pySplit.induct with
  | case1 =>
    intro w hw
    simp [pySplit] at hw
  | case2 c cs hc ih =>
    intro w hw
    rw [pySplit.eq_2, if_pos hc] at hw
    obtain ⟨h1, h2⟩ := ih w hw
    exact ⟨h1, fun d hd => List.mem_cons_of_mem c (h2 d hd)⟩
  | case3 c cs hc ih =>
    intro w hw
    rw [pySplit.eq_2, if_neg hc] at hw
    rcases List.mem_cons.mp hw with rfl | hw
    · refine ⟨⟨by simp, ?_⟩, ?_⟩
      · intro d hd
        rcases List.mem_cons.mp hd with rfl | hd
        · simpa using hc
        · have := List.mem_takeWhile_imp hd
          simpa using this
      · intro d hd
        rcases List.mem_cons.mp hd with rfl | hd
        · exact List.mem_cons_self _ _
        · exact List.mem_cons_of_mem c
            ((List.takeWhile_sublist _).subset hd)
    · obtain ⟨h1, h2⟩ := ih w hw
      exact ⟨h1, fun d hd =>
        List.mem_cons_of_mem c ((List.dropWhile_sublist _).subset (h2 d hd))⟩

/-- All-whitespace strings split to no words. -/
theorem pySplit_all_space (s : Str) (h : ∀ c ∈ s, isPySpace c = true) :
    pySplit s = [] := by
  induction s using pySplit.induct with
  | case1 => exact pySplit.eq_1
  | case2 c cs hc ih =>
    rw [pySplit.eq_2, if_pos hc]
    exact ih (fun d hd => h d (List.mem_cons_of_mem c hd))
  | case3 c cs hc ih =>
    exact absurd (h c (List.mem_cons_self c cs)) hc

/-- Appending trailing whitespace does not change `pySplit`. -/
theorem pySplit_append_space (sp : Str)
    (hsp : ∀ c ∈ sp, isPySpace c = true) :
    ∀ v : Str, pySplit (v ++ sp) = pySplit v := by
  intro v
  induction v using pySplit.induct with
  | case1 =>
    rw [List.nil_append, pySplit.eq_1]
    exact pySplit_all_space sp hsp
  | case2 c cs hc ih =>
    rw [List.cons_append, pySplit.eq_2, if_pos hc, pySplit.eq_2, if_pos hc]
    exact ih
  | case3 c cs hc ih =>
    rw [List.cons_append, pySplit.eq_2, if_neg hc, pySplit.eq_2, if_neg hc]
    cases hd : cs.dropWhile (fun d => !isPySpace d) with
    | nil =>
      have hall : ∀ d ∈ cs, (!isPySpace d) = true :=
        List.dropWhile_eq_nil_iff.mp hd
      rw [List.takeWhile_append_of_pos hall, List.dropWhile_append_of_pos hall,
        takeWhile_not_space_nil sp hsp, dropWhile_not_space_self sp hsp,
        takeWhile_eq_self_of_all _ cs hall, List.append_nil,
        pySplit_all_space sp hsp, pySplit.eq_1]
    | cons d rest =>
      have hlen : ¬ (cs.takeWhile (fun x => !isPySpace x)).length = cs.length := by
        have h1 := List.takeWhile_append_dropWhile (fun x => !isPySpace x) cs
        have h2 := congrArg List.length h1
        rw [hd] at h2
        simp only [List.length_append, List.length_cons] at h2
        omega
      have htw : (cs ++ sp).takeWhile (fun x => !isPySpace x)
          = cs.takeWhile (fun x => !isPySpace x) := by
        rw [List.takeWhile_append, if_neg hlen]
      have hdw : (cs ++ sp).dropWhile (fun x => !isPySpace x)
          = cs.dropWhile (fun x => !isPySpace x) ++ sp := by
        rw [List.dropWhile_append, hd]
        simp
      rw [htw, hdw, ih, hd]

/-- Splitting ignores leading whitespace removal. -/
theorem pySplit_dropWhile_space (t : Str) :
    pySplit (t.dropWhile isPySpace) = pySplit t := by
  induction t with
  | nil => rfl
  | cons c cs ih =>
    by_cases hc : isPySpace c
    · rw [List.dropWhile_cons_of_pos hc, ih, pySplit.eq_2, if_pos hc]
    · rw [List.dropWhile_cons_of_neg hc]

/-- Splitting is invariant under stripping. -/
theorem pySplit_pyStrip (t : Str) : pySplit (pyStrip t) = pySplit t := by
  unfold pyStrip
  set u := t.dropWhile isPySpace with hu
  have hdec : u = (u.reverse.dropWhile isPySpace).reverse
      ++ (u.reverse.takeWhile isPySpace).reverse := by
    have h1 := List.takeWhile_append_dropWhile isPySpace u.reverse
    have h2 := congrArg List.reverse h1
    rw [List.reverse_append, List.reverse_reverse] at h2
    exact h2.symm
  have hsp : ∀ c ∈ (u.reverse.takeWhile isPySpace).reverse,
      isPySpace c = true := by
    intro c hcmem
    rw [List.mem_reverse] at hcmem
    exact List.mem_takeWhile_imp hcmem
  calc pySplit (u.reverse.dropWhile isPySpace).reverse
      = pySplit ((u.reverse.dropWhile isPySpace).reverse
          ++ (u.reverse.takeWhile isPySpace).reverse) := by
        rw [pySplit_append_space _ hsp]
    _ = pySplit u := by rw [← hdec]
    _ = pySplit t := pySplit_dropWhile_space t

/-- Lowering commutes with stripping. -/
theorem strLower_pyStrip (s : Str) :
    strLower (pyStrip s) = pyStrip (strLower s) := by
  have hpred : (isPySpace ∘ lowerChar) = isPySpace := by
    funext c
    exact isPySpace_lowerChar c
  unfold pyStrip strLower
  rw [List.dropWhile_map, hpred, ← List.map_reverse, List.dropWhile_map,
    hpred, ← List.map_reverse]

/-- Lowering distributes over joining with single spaces. -/
theorem strLower_joinSpace (ws : List Str) :
    strLower (joinSpace ws) = joinSpace (ws.map strLower) := by
  induction ws with
  | nil => rfl
  | cons w ws ih =>
    cases ws with
    | nil => rfl
    | cons w' ws' =>
      show strLower (w ++ ' ' :: joinSpace (w' :: ws'))
        = strLower w ++ ' ' :: joinSpace ((w' :: ws').map strLower)
      rw [← ih]
      unfold strLower
      rw [List.map_append, List.map_cons]
      rfl

/-- Splitting the space-joined concatenation of words recovers the words. -/
theorem pySplit_joinSpace (ws : List Str) (h : ∀ w ∈ ws, IsWord w) :
    pySplit (joinSpace ws) = ws := by
  induction ws with
  | nil => exact pySplit.eq_1
  | cons w ws ih =>
    obtain ⟨hne, hnsp⟩ := h w (List.mem_cons_self w ws)
    obtain ⟨c, cs, rfl⟩ : ∃ c cs, w = c :: cs := by
      cases w with
      | nil => exact absurd rfl hne
      | cons c cs => exact ⟨c, cs, rfl⟩
    have hcq : ¬ isPySpace c = true := by
      simp [hnsp c (List.mem_cons_self c cs)]
    have hcsq : ∀ d ∈ cs, (!isPySpace d) = true := by
      intro d hdm
      simp [hnsp d (List.mem_cons_of_mem c hdm)]
    cases ws with
    | nil =>
      show pySplit (c :: cs) = [c :: cs]
      rw [pySplit.eq_2, if_neg hcq, takeWhile_eq_self_of_all _ cs hcsq,
        List.dropWhile_eq_nil_iff.mpr hcsq, pySplit.eq_1]
    | cons w' ws' =>
      show pySplit ((c :: cs) ++ ' ' :: joinSpace (w' :: ws'))
        = (c :: cs) :: (w' :: ws')
      rw [List.cons_append, pySplit.eq_2, if_neg hcq,
        List.takeWhile_append_of_pos hcsq, List.dropWhile_append_of_pos hcsq]
      have h5 : List.takeWhile (fun a => !isPySpace a)
          (' ' :: joinSpace (w' :: ws')) = [] :=
        List.takeWhile_cons_of_neg (by decide)
      have h6 : List.dropWhile (fun a => !isPySpace a)
          (' ' :: joinSpace (w' :: ws')) = ' ' :: joinSpace (w' :: ws') :=
        List.dropWhile_cons_of_neg (by decide)
      rw [h5, h6, List.append_nil, pySplit.eq_2, if_pos (by decide),
        ih (fun x hx => h x (List.mem_cons_of_mem (c :: cs) hx))]

/-- The words of a lowered string are fixed by lowering. -/
theorem pySplit_strLower_fixed (x : Str) :
    ∀ w ∈ pySplit (strLower x), strLower w = w := by
  intro w hw
  have hmem := (pySplit_words (strLower x) w hw).2
  have : ∀ c ∈ w, lowerChar c = c := by
    intro c hcw
    have hcx : c ∈ strLower x := hmem c hcw
    unfold strLower at hcx
    obtain ⟨d, _, rfl⟩ := List.mem_map.mp hcx
    exact lowerChar_idem d
  calc w.map lowerChar = w.map id := List.map_congr_left this
    _ = w := List.map_id w

/-- C9: answer normalization is idempotent —
`normalize_answer (normalize_answer s) = normalize_answer s`. -/
theorem normalize_answer_idem (s : Str) :
    normalize_answer (normalize_answer s) = normalize_answer s := by
  unfold normalize_answer
  rw [strLower_pyStrip s]
  rw [pySplit_pyStrip (strLower s)]
  set ws := pySplit (strLower s) with hws
  have hwords : ∀ w ∈ ws, IsWord w := fun w hw =>
    (pySplit_words (strLower s) w hw).1
  have hfix : ∀ w ∈ ws, strLower w = w := pySplit_strLower_fixed s
  have h1 : strLower (joinSpace ws) = joinSpace ws := by
    rw [strLower_joinSpace]
    congr 1
    calc ws.map strLower = ws.map id := List.map_congr_left hfix
      _ = ws := List.map_id ws
  rw [strLower_pyStrip (joinSpace ws), h1, pySplit_pyStrip (joinSpace ws),
    pySplit_joinSpace ws hwords]

/-- C7 counterexample: for a multiple-choice question whose only option
label is `"A"`, the line `"A"` — exactly the valid option label — is not
accepted: the loop lowercases the input to `"a"`, which matches no label,
so the presenter re-prompts forever instead of accepting, and acceptance
is not case-insensitive for this question. -/
theorem mc_uppercase_label_rejected :
    ("A".toList
        ∈ ([("A".toList, "optA".toList)].map Prod.fst)) ∧
    mcPromptLoop
      ⟨"q".toList, [("A".toList, "optA".toList)], "A".toList, "e".toList⟩
      ["A".toList] = none ∧
    ask_mc_question
      ⟨"q".toList, [("A".toList, "optA".toList)], "A".toList, "e".toList⟩
      ["A".toList] = none := by
  decide

/-- C7 (amended): the prompt loop accepts exactly a line whose stripped,
lowercased form equals one of the option labels (case-insensitive in the
typed input, hence case-insensitive acceptance of the lowercase labels the
data uses), re-prompting on every other line; the answer is judged correct
iff the accepted (lowered) choice equals `correct_option` by exact
equality; and the explanation is the last line printed in both branches,
provided the correct option's text can be looked up. -/
theorem ask_mc_question_spec (q : MCQ) (inputs : List Str)
    (hkey : (q.options.find? (fun p => p.1 == q.correct_option)).isSome
      = true) :
    (∀ choice reprompts, mcPromptLoop q inputs = some (choice, reprompts) →
      q.options.any (fun p => p.1 == choice) = true ∧
      ∃ inp ∈ inputs, choice = strLower (pyStrip inp)) ∧
    (mcPromptLoop q inputs = none →
      ∀ inp ∈ inputs,
        q.options.any (fun p => p.1 == strLower (pyStrip inp)) = false) ∧
    (∀ choice reprompts, mcPromptLoop q inputs = some (choice, reprompts) →
      ∃ ok lines, ask_mc_question q inputs = some (ok, choice, reprompts ++ lines) ∧
        ((ok = true) ↔ choice = q.correct_option) ∧
        lines.getLast? = some ("Explanation: ".toList ++ q.explanation)) := by
  have main : (∀ choice reprompts,
      mcPromptLoop q inputs = some (choice, reprompts) →
      q.options.any (fun p => p.1 == choice) = true ∧
      ∃ inp ∈ inputs, choice = strLower (pyStrip inp)) ∧
      (mcPromptLoop q inputs = none →
      ∀ inp ∈ inputs,
        q.options.any (fun p => p.1 == strLower (pyStrip inp)) = false) := by
    induction inputs with
    | nil =>
      constructor
      · intro choice reprompts h
        exact absurd h (by simp [mcPromptLoop])
      · intro _ inp hinp
        exact absurd hinp (List.not_mem_nil inp)
    | cons inp rest ih =>
      by_cases hval : q.options.any
          (fun p => p.1 == strLower (pyStrip inp)) = true
      · have hloop : mcPromptLoop q (inp :: rest)
            = some (strLower (pyStrip inp), []) := by
          unfold mcPromptLoop
          rw [if_pos hval]
        constructor
        · intro choice reprompts h
          rw [hloop] at h
          have h' := Option.some.inj h
          injection h' with e1 e2
          subst e1
          subst e2
          exact ⟨hval, inp, List.mem_cons_self inp rest, rfl⟩
        · intro h
          rw [hloop] at h
          exact absurd h (by simp)
      · have hvalf : q.options.any
            (fun p => p.1 == strLower (pyStrip inp)) = false := by
          rwa [← Bool.not_eq_true]
        cases hrest : mcPromptLoop q rest with
        | none =>
          have hloop : mcPromptLoop q (inp :: rest) = none := by
            unfold mcPromptLoop
            rw [if_neg hval, hrest]
          constructor
          · intro choice reprompts h
            rw [hloop] at h
            exact absurd h (by simp)
          · intro _ inp' hinp'
            rcases List.mem_cons.mp hinp' with rfl | hinp'
            · exact hvalf
            · exact (ih.2 hrest) inp' hinp'
        | some cr =>
          have hloop : mcPromptLoop q (inp :: rest)
              = some (cr.1, "Please type a, b, c, or d.".toList :: cr.2) := by
            unfold mcPromptLoop
            rw [if_neg hval, hrest]
          constructor
          · intro choice reprompts h
            rw [hloop] at h
            cases h
            obtain ⟨h1, inp', hinp', h2⟩ := ih.1 cr.1 cr.2 (by rw [hrest])
            exact ⟨h1, inp', List.mem_cons_of_mem inp hinp', h2⟩
          · intro h
            rw [hloop] at h
            exact absurd h (by simp)
  refine ⟨main.1, main.2, ?_⟩
  intro choice reprompts h
  by_cases hc : (choice == q.correct_option) = true
  · have hj : mcJudge q choice = some (true, choice,
        ["✅ Correct!".toList, "Explanation: ".toList ++ q.explanation]) := by
      unfold mcJudge
      rw [if_pos hc]
    refine ⟨true,
      ["✅ Correct!".toList, "Explanation: ".toList ++ q.explanation],
      ?_, ⟨fun _ => eq_of_beq hc, fun _ => rfl⟩, rfl⟩
    simp [ask_mc_question, h, hj]
  · obtain ⟨p, hp⟩ := Option.isSome_iff_exists.mp hkey
    have hj : mcJudge q choice = some (false, choice,
        ["❌ Incorrect. Correct answer: ".toList ++ q.correct_option
            ++ (") ".toList ++ p.2),
          "Explanation: ".toList ++ q.explanation]) := by
      unfold mcJudge
      rw [if_neg hc, hp]
    refine ⟨false,
      ["❌ Incorrect. Correct answer: ".toList ++ q.correct_option
          ++ (") ".toList ++ p.2),
        "Explanation: ".toList ++ q.explanation],
      ?_, ?_, rfl⟩
    · simp [ask_mc_question, h, hj]
    · simp only [Bool.false_eq_true, false_iff]
      intro hcc
      exact hc (by simp [hcc])

/-- Witness for the amended C7 at a concrete question: labels `a`/`b`,
correct option `a`; the user first types an invalid line `X`, then
`" B "`, which is accepted as choice `b` after strip+lower and judged
incorrect; the explanation is printed last. -/
theorem ask_mc_question_spec_witness :
    ((([("a".toList, "A1".toList), ("b".toList, "B1".toList)] :
        List (Str × Str)).find?
        (fun p => p.1 == "a".toList)).isSome = true) ∧
    ((∀ choice reprompts,
      mcPromptLoop
        ⟨"q".toList, [("a".toList, "A1".toList), ("b".toList, "B1".toList)],
          "a".toList, "expl".toList⟩
        ["X".toList, " B ".toList] = some (choice, reprompts) →
      ([("a".toList, "A1".toList), ("b".toList, "B1".toList)].any
        (fun p => p.1 == choice)) = true ∧
      ∃ inp ∈ ["X".toList, " B ".toList], choice = strLower (pyStrip inp)) ∧
    (mcPromptLoop
        ⟨"q".toList, [("a".toList, "A1".toList), ("b".toList, "B1".toList)],
          "a".toList, "expl".toList⟩
        ["X".toList, " B ".toList] = none →
      ∀ inp ∈ ["X".toList, " B ".toList],
        ([("a".toList, "A1".toList), ("b".toList, "B1".toList)].any
          (fun p => p.1 == strLower (pyStrip inp))) = false) ∧
    (∀ choice reprompts,
      mcPromptLoop
        ⟨"q".toList, [("a".toList, "A1".toList), ("b".toList, "B1".toList)],
          "a".toList, "expl".toList⟩
        ["X".toList, " B ".toList] = some (choice, reprompts) →
      ∃ ok lines,
        ask_mc_question
          ⟨"q".toList, [("a".toList, "A1".toList), ("b".toList, "B1".toList)],
            "a".toList, "expl".toList⟩
          ["X".toList, " B ".toList] = some (ok, choice, reprompts ++ lines) ∧
        ((ok = true) ↔ choice = "a".toList) ∧
        lines.getLast? = some ("Explanation: ".toList ++ "expl".toList))) :=
  ⟨by decide,
    ask_mc_question_spec
      ⟨"q".toList, [("a".toList, "A1".toList), ("b".toList, "B1".toList)],
        "a".toList, "expl".toList⟩
      ["X".toList, " B ".toList] (by decide)⟩

/-- Bind on `Except` after a success. -/
theorem exceptBind_ok {α β : Type} (a : α) (f : α → Except Unit β) :
    (Except.ok a >>= f : Except Unit β) = f a := rfl

/-- Bind on `Except` after a failure. -/
theorem exceptBind_error {α β : Type} (f : α → Except Unit β) :
    (Except.error () >>= f : Except Unit β) = Except.error () := rfl

/-- Looking up `k` after appending `(k, v)`: the old binding if present,
else `v`. -/
theorem lookupLB_append (m : List (String × LB)) (k : String) (v : LB) :
    lookupLB (m ++ [(k, v)]) k = some ((lookupLB m k).getD v) := by
  unfold lookupLB
  rw [List.find?_append]
  cases hf : m.find? (fun p => p.1 == k) with
  | none => simp
  | some p => simp

/-- Appending a binding for key `k` does not change other keys. -/
theorem lookupLB_append_ne (m : List (String × LB)) (k k' : String) (v : LB)
    (h : k ≠ k') : lookupLB (m ++ [(k, v)]) k' = lookupLB m k' := by
  unfold lookupLB
  rw [List.find?_append]
  cases hf : m.find? (fun p => p.1 == k') with
  | none => simp [h]
  | some p => simp

/-- Updating a present key then looking it up yields the new value. -/
theorem lookupLB_update_self (m : List (String × LB)) (k : String) (v : LB)
    (h : (lookupLB m k).isSome = true) :
    lookupLB (updateLB m k v) k = some v := by
  induction m with
  | nil => simp [lookupLB] at h
  | cons p m ih =>
    by_cases hp : (p.1 == k) = true
    · unfold updateLB lookupLB
      rw [List.map_cons, if_pos hp,
        List.find?_cons_of_pos (p := fun q : String × LB => q.1 == k) _ (by simp)]
      rfl
    · unfold updateLB lookupLB at *
      rw [List.map_cons, if_neg hp,
        List.find?_cons_of_neg (p := fun q : String × LB => q.1 == k) _ hp]
      rw [List.find?_cons_of_neg (p := fun q : String × LB => q.1 == k) _ hp] at h
      exact ih h

/-- Updating key `k` does not change other keys. -/
theorem lookupLB_update_ne (m : List (String × LB)) (k k' : String) (v : LB)
    (h : k ≠ k') : lookupLB (updateLB m k v) k' = lookupLB m k' := by
  induction m with
  | nil => rfl
  | cons p m ih =>
    by_cases hp : (p.1 == k) = true
    · unfold updateLB lookupLB at *
      rw [List.map_cons, if_pos hp]
      have h1 : ¬ (((k, v) : String × LB).1 == k') = true := by simp [h]
      have h2 : ¬ (p.1 == k') = true := by
        have hpk : p.1 = k := by simpa using hp
        simp [hpk, h]
      rw [List.find?_cons_of_neg (p := fun q : String × LB => q.1 == k') _ h1,
        List.find?_cons_of_neg (p := fun q : String × LB => q.1 == k') _ h2]
      exact ih
    · unfold updateLB lookupLB at *
      rw [List.map_cons, if_neg hp]
      by_cases hq : (p.1 == k') = true
      · rw [List.find?_cons_of_pos (p := fun q : String × LB => q.1 == k') _ hq,
          List.find?_cons_of_pos (p := fun q : String × LB => q.1 == k') _ hq]
      · rw [List.find?_cons_of_neg (p := fun q : String × LB => q.1 == k') _ hq,
          List.find?_cons_of_neg (p := fun q : String × LB => q.1 == k') _ hq]
        exact ih

/-- Inversion of one successful `gstepAux` on a dict containing the key. -/
theorem gstepAux_ok (m : List (String × LB)) (e : Entry)
    (m' : List (String × LB)) (st₀ : LB)
    (hst₀ : lookupLB m e.set_id = some st₀)
    (h : gstepAux m e = .ok m') :
    ∃ st', stepLB st₀ e.score e.total = .ok st'
      ∧ m' = updateLB m e.set_id st' := by
  have heq : gstepAux m e
      = (stepLB st₀ e.score e.total
          >>= fun st' => pure (updateLB m e.set_id st')) := by
    unfold gstepAux
    rw [hst₀]
  rw [heq] at h
  cases hs : stepLB st₀ e.score e.total with
  | error u =>
    rw [hs] at h
    cases u
    rw [exceptBind_error] at h
    exact absurd h (by simp)
  | ok st' =>
    rw [hs, exceptBind_ok] at h
    injection h with h'
    exact ⟨st', rfl, h'.symm⟩

/-- Inversion of one successful `gstep`: the entry's key was stepped from
its previous record (defaulting to the empty record), and no other key
changed. -/
theorem gstep_ok (m : List (String × LB)) (e : Entry) (m' : List (String × LB))
    (h : gstep m e = .ok m') :
    ∃ st', stepLB ((lookupLB m e.set_id).getD ⟨none, none⟩) e.score e.total
        = .ok st' ∧
      lookupLB m' e.set_id = some st' ∧
      ∀ k, k ≠ e.set_id → lookupLB m' k = lookupLB m k := by
  unfold gstep at h
  by_cases hmem : (lookupLB m e.set_id).isSome = true
  · rw [if_pos hmem] at h
    obtain ⟨st₀, hst₀⟩ := Option.isSome_iff_exists.mp hmem
    obtain ⟨st', hs, hm'⟩ := gstepAux_ok m e m' st₀ hst₀ h
    subst hm'
    refine ⟨st', ?_, ?_, ?_⟩
    · rw [hst₀]
      exact hs
    · exact lookupLB_update_self m e.set_id st' hmem
    · intro k hk
      exact lookupLB_update_ne m e.set_id k st' (fun hh => hk hh.symm)
  · rw [if_neg hmem] at h
    have hlk : lookupLB (m ++ [(e.set_id, (⟨none, none⟩ : LB))]) e.set_id
        = some ((lookupLB m e.set_id).getD ⟨none, none⟩) :=
      lookupLB_append m e.set_id ⟨none, none⟩
    obtain ⟨st', hs, hm'⟩ := gstepAux_ok _ e m' _ hlk h
    subst hm'
    refine ⟨st', hs, ?_, ?_⟩
    · exact lookupLB_update_self _ e.set_id st' (by rw [hlk]; rfl)
    · intro k hk
      rw [lookupLB_update_ne _ e.set_id k st' (fun hh => hk hh.symm)]
      exact lookupLB_append_ne m e.set_id k ⟨none, none⟩ (fun hh => hk hh.symm)

/-- Refinement: when the whole history scan succeeds, the record the dict
holds for key `k` is the per-key fold `bestFold` over the entries carrying
key `k`, from that key's initial record. -/
theorem foldlM_gstep_lookup (history : List Entry) :
    ∀ (m res : List (String × LB)) (k : String),
      history.foldlM gstep m = .ok res →
      bestFold ((lookupLB m k).getD ⟨none, none⟩)
          (history.filter (fun e => e.set_id == k))
        = .ok ((lookupLB res k).getD ⟨none, none⟩) := by
  induction history with
  | nil =>
    intro m res k h
    rw [List.foldlM_nil] at h
    have hmr : m = res := Except.ok.inj h
    subst hmr
    rfl
  | cons e hs ih =>
    intro m res k h
    rw [List.foldlM_cons] at h
    cases hg : gstep m e with
    | error u =>
      rw [hg] at h
      cases u
      rw [exceptBind_error] at h
      exact absurd h (by simp)
    | ok m₁ =>
      rw [hg, exceptBind_ok] at h
      obtain ⟨st', hstep, hlook, hother⟩ := gstep_ok m e m₁ hg
      by_cases hk : e.set_id = k
      · subst hk
        rw [List.filter_cons_of_pos (by simp)]
        unfold bestFold
        rw [List.foldlM_cons, hstep, exceptBind_ok]
        have hres := ih m₁ res e.set_id h
        rw [hlook] at hres
        exact hres
      · rw [List.filter_cons_of_neg (by simp [hk])]
        have hres := ih m₁ res k h
        rw [hother k (fun hh => hk hh.symm)] at hres
        exact hres

/-- Stepping `stepLB` on a record whose best is `(bs, bt)`, written as the explicit
division-compare-replace pipeline. -/
theorem stepLB_some (st : LB) (bs bt s t : Int) (hb : st.best = some (bs, bt)) :
    stepLB st s t = (do
      let r ← pyDiv s t
      let br ← pyDiv bs bt
      if br < r then pure ⟨some (s, t), some (s, t)⟩
      else pure (⟨some (s, t), some (bs, bt)⟩ : LB) : Except Unit LB) := by
  unfold stepLB
  rw [hb]

/-- The running-best recursion, characterised over the remaining entries:
starting from a record whose best pair is `(bs, bt)`, a successful fold
either keeps `(bs, bt)` (no remaining entry's ratio strictly exceeds it)
or ends at an entry whose ratio strictly exceeds `(bs, bt)`'s and every
earlier remaining entry's, and is at least every remaining entry's. -/
theorem bestFold_char (l : List Entry) :
    ∀ (st : LB) (bs bt : Int), st.best = some (bs, bt) →
      ∀ st', bestFold st l = .ok st' →
      ∃ bp : Int × Int, st'.best = some bp ∧
        ((bp = (bs, bt) ∧ ∀ e ∈ l, entryRatio e ≤ (bs : ℚ) / (bt : ℚ))
        ∨ ∃ j, ∃ hj : j < l.length, bp = ((l[j]).score, (l[j]).total) ∧
            (bs : ℚ) / (bt : ℚ) < entryRatio l[j] ∧
            (∀ i, ∀ hi : i < l.length, i < j →
              entryRatio l[i] < entryRatio l[j]) ∧
            (∀ i, ∀ hi : i < l.length, entryRatio l[i] ≤ entryRatio l[j])) := by
  induction l with
  | nil =>
    intro st bs bt hb st' hfold
    have hst : st = st' := by
      unfold bestFold at hfold
      rw [List.foldlM_nil] at hfold
      exact Except.ok.inj hfold
    subst hst
    exact ⟨(bs, bt), hb,
      Or.inl ⟨rfl, fun e he => absurd he (List.not_mem_nil e)⟩⟩
  | cons e l ih =>
    intro st bs bt hb st' hfold
    unfold bestFold at hfold
    rw [List.foldlM_cons] at hfold
    cases hs : stepLB st e.score e.total with
    | error u =>
      rw [hs] at hfold
      cases u
      rw [exceptBind_error] at hfold
      exact absurd hfold (by simp)
    | ok st₁ =>
      rw [hs, exceptBind_ok] at hfold
      rw [stepLB_some st bs bt e.score e.total hb] at hs
      cases hr : pyDiv e.score e.total with
      | error u =>
        rw [hr] at hs
        cases u
        rw [exceptBind_error] at hs
        exact absurd hs (by simp)
      | ok r =>
        rw [hr, exceptBind_ok] at hs
        cases hbr : pyDiv bs bt with
        | error u =>
          rw [hbr] at hs
          cases u
          rw [exceptBind_error] at hs
          exact absurd hs (by simp)
        | ok br =>
          rw [hbr, exceptBind_ok] at hs
          have hrval : r = entryRatio e := by
            unfold pyDiv at hr
            by_cases ht : e.total = 0
            · rw [if_pos ht] at hr
              exact absurd hr (by simp)
            · rw [if_neg ht] at hr
              exact (Except.ok.inj hr).symm.trans (Rat.divInt_eq_div _ _)
          have hbrval : br = (bs : ℚ) / (bt : ℚ) := by
            unfold pyDiv at hbr
            by_cases ht : bt = 0
            · rw [if_pos ht] at hbr
              exact absurd hbr (by simp)
            · rw [if_neg ht] at hbr
              exact (Except.ok.inj hbr).symm.trans (Rat.divInt_eq_div _ _)
          subst hrval
          subst hbrval
          by_cases hcmp : (bs : ℚ) / (bt : ℚ) < entryRatio e
          · rw [if_pos hcmp] at hs
            have hst₁ : st₁ = ⟨some (e.score, e.total),
                some (e.score, e.total)⟩ := (Except.ok.inj hs).symm
            obtain ⟨bp, hbp, hcase⟩ :=
              ih st₁ e.score e.total (by rw [hst₁]) st' hfold
            refine ⟨bp, hbp, Or.inr ?_⟩
            rcases hcase with ⟨rfl, hle⟩ | ⟨j, hj, hbpj, hgt, hstrict, hmax⟩
            · refine ⟨0, by simp, by simp, ?_, ?_, ?_⟩
              · simpa [entryRatio] using hcmp
              · intro i hi hi0
                omega
              · intro i hi
                cases i with
                | zero => simp
                | succ i' =>
                  have hi' : i' < l.length := by
                    simp only [List.length_cons] at hi
                    omega
                  have hh := hle (l[i']) (List.getElem_mem hi')
                  simpa [entryRatio] using hh
            · have hgt' : entryRatio e < entryRatio l[j] := hgt
              refine ⟨j + 1, by simpa using Nat.succ_lt_succ hj,
                by simpa using hbpj, ?_, ?_, ?_⟩
              · have : (bs : ℚ) / (bt : ℚ) < entryRatio l[j] :=
                  lt_trans hcmp hgt'
                simpa using this
              · intro i hi hij
                cases i with
                | zero => simpa using hgt'
                | succ i' =>
                  have hi' : i' < l.length := by
                    simp only [List.length_cons] at hi
                    omega
                  have hh := hstrict i' hi' (by omega)
                  simpa using hh
              · intro i hi
                cases i with
                | zero => simpa using hgt'.le
                | succ i' =>
                  have hi' : i' < l.length := by
                    simp only [List.length_cons] at hi
                    omega
                  have hh := hmax i' hi'
                  simpa using hh
          · rw [if_neg hcmp] at hs
            have hst₁ : st₁ = ⟨some (e.score, e.total), some (bs, bt)⟩ :=
              (Except.ok.inj hs).symm
            obtain ⟨bp, hbp, hcase⟩ :=
              ih st₁ bs bt (by rw [hst₁]) st' hfold
            have hele : entryRatio e ≤ (bs : ℚ) / (bt : ℚ) :=
              le_of_not_lt hcmp
            refine ⟨bp, hbp, ?_⟩
            rcases hcase with ⟨rfl, hle⟩ | ⟨j, hj, hbpj, hgt, hstrict, hmax⟩
            · refine Or.inl ⟨rfl, ?_⟩
              intro e' he'
              rcases List.mem_cons.mp he' with rfl | he'
              · exact hele
              · exact hle e' he'
            · refine Or.inr ⟨j + 1, by simpa using Nat.succ_lt_succ hj,
                by simpa using hbpj, by simpa using hgt, ?_, ?_⟩
              · intro i hi hij
                cases i with
                | zero =>
                  have : entryRatio e < entryRatio l[j] :=
                    lt_of_le_of_lt hele hgt
                  simpa using this
                | succ i' =>
                  have hi' : i' < l.length := by
                    simp only [List.length_cons] at hi
                    omega
                  have hh := hstrict i' hi' (by omega)
                  simpa using hh
              · intro i hi
                cases i with
                | zero =>
                  have : entryRatio e ≤ entryRatio l[j] :=
                    le_of_lt (lt_of_le_of_lt hele hgt)
                  simpa using this
                | succ i' =>
                  have hi' : i' < l.length := by
                    simp only [List.length_cons] at hi
                    omega
                  have hh := hmax i' hi'
                  simpa using hh

/-- From the empty initial record, a successful best fold ends at the
earliest entry of maximal ratio. -/
theorem bestFold_top (l : List Entry) (st' : LB)
    (h : bestFold ⟨none, none⟩ l = .ok st') (bs bt : Int)
    (hbest : st'.best = some (bs, bt)) :
    ∃ j, ∃ hj : j < l.length, (l[j]).score = bs ∧ (l[j]).total = bt ∧
      (∀ i, ∀ hi : i < l.length, i < j →
        entryRatio l[i] < entryRatio l[j]) ∧
      (∀ i, ∀ hi : i < l.length, entryRatio l[i] ≤ entryRatio l[j]) := by
  cases l with
  | nil =>
    have hst : st' = ⟨none, none⟩ := by
      unfold bestFold at h
      rw [List.foldlM_nil] at h
      exact (Except.ok.inj h).symm
    rw [hst] at hbest
    exact absurd hbest (by simp)
  | cons e l' =>
    unfold bestFold at h
    rw [List.foldlM_cons] at h
    have hstep : stepLB ⟨none, none⟩ e.score e.total
        = .ok ⟨some (e.score, e.total), some (e.score, e.total)⟩ := rfl
    rw [hstep, exceptBind_ok] at h
    obtain ⟨bp, hbp, hcase⟩ := bestFold_char l'
      ⟨some (e.score, e.total), some (e.score, e.total)⟩
      e.score e.total rfl st' h
    have hbppair : bp = (bs, bt) := by
      rw [hbp] at hbest
      exact Option.some.inj hbest
    subst hbppair
    rcases hcase with ⟨hpair, hle⟩ | ⟨j, hj, hbpj, hgt, hstrict, hmax⟩
    · injection hpair with hp1 hp2
      refine ⟨0, by simp, by simpa using hp1.symm, by simpa using hp2.symm,
        ?_, ?_⟩
      · intro i hi hij
        omega
      · intro i hi
        cases i with
        | zero => simp
        | succ i' =>
          have hi' : i' < l'.length := by
            simp only [List.length_cons] at hi
            omega
          have hh := hle (l'[i']) (List.getElem_mem hi')
          simpa [entryRatio] using hh
    · injection hbpj with hp1 hp2
      have hgt' : entryRatio e < entryRatio l'[j] := hgt
      refine ⟨j + 1, by simpa using Nat.succ_lt_succ hj,
        by simpa using hp1.symm, by simpa using hp2.symm, ?_, ?_⟩
      · intro i hi hij
        cases i with
        | zero => simpa using hgt'
        | succ i' =>
          have hi' : i' < l'.length := by
            simp only [List.length_cons] at hi
            omega
          have hh := hstrict i' hi' (by omega)
          simpa using hh
      · intro i hi
        cases i with
        | zero => simpa using hgt'.le
        | succ i' =>
          have hi' : i' < l'.length := by
            simp only [List.length_cons] at hi
            omega
          have hh := hmax i' hi'
          simpa using hh

/-- C2: when `get_last_and_best` succeeds and records a best pair
`(bs, bt)` for key `k`, that pair is the `(score, total)` of an actual
history entry for `k`, its score/total ratio is greater than or equal to
the ratio of every entry for `k`, and it is the earliest entry attaining
that ratio — every strictly earlier entry for `k` has a strictly smaller
ratio, so a later entry with an equal ratio has not replaced it. -/
theorem get_last_and_best_best_spec (keys : List String)
    (history : List Entry) (res : List (String × LB)) (k : String) (st : LB)
    (bs bt : Int)
    (h1 : get_last_and_best keys history = .ok res)
    (h2 : lookupLB res k = some st)
    (h3 : st.best = some (bs, bt)) :
    ∃ j, ∃ hj : j < (history.filter (fun e => e.set_id == k)).length,
      ((history.filter (fun e => e.set_id == k))[j]).score = bs ∧
      ((history.filter (fun e => e.set_id == k))[j]).total = bt ∧
      (∀ i, ∀ hi : i < (history.filter (fun e => e.set_id == k)).length,
        i < j →
        entryRatio (history.filter (fun e => e.set_id == k))[i]
          < entryRatio (history.filter (fun e => e.set_id == k))[j]) ∧
      (∀ i, ∀ hi : i < (history.filter (fun e => e.set_id == k)).length,
        entryRatio (history.filter (fun e => e.set_id == k))[i]
          ≤ entryRatio (history.filter (fun e => e.set_id == k))[j]) := by
  have hfold := foldlM_gstep_lookup history
    ((keys ++ ["all"]).map (fun k' => (k', ⟨none, none⟩))) res k h1
  have hinit : (lookupLB
      ((keys ++ ["all"]).map (fun k' => (k', (⟨none, none⟩ : LB)))) k).getD
        ⟨none, none⟩ = ⟨none, none⟩ := by
    unfold lookupLB
    rw [List.find?_map]
    cases hf : (keys ++ ["all"]).find?
        ((fun p : String × LB => p.1 == k) ∘ (fun k' => (k', ⟨none, none⟩)))
        with
    | none => simp
    | some a => simp
  rw [hinit, h2] at hfold
  exact bestFold_top _ st hfold bs bt h3

/-- Witness for C2 at a concrete input: key `s1` with entries of ratios
1/2, 3/4 and 3/4 again (plus an unrelated `s2` entry); the best is the
`3/4` from the second entry — the earliest maximal one. -/
theorem get_last_and_best_best_spec_witness :
    (get_last_and_best ["s1"]
      [⟨"s1", "T", 1, 2, "d1"⟩, ⟨"s1", "T", 3, 4, "d2"⟩,
        ⟨"s2", "T", 9, 10, "d3"⟩, ⟨"s1", "T", 3, 4, "d4"⟩]
      = .ok [("s1", ⟨some (3, 4), some (3, 4)⟩),
          ("all", ⟨none, none⟩),
          ("s2", ⟨some (9, 10), some (9, 10)⟩)]) ∧
    (lookupLB [("s1", ⟨some (3, 4), some (3, 4)⟩),
          ("all", ⟨none, none⟩),
          ("s2", ⟨some (9, 10), some (9, 10)⟩)] "s1"
      = some ⟨some (3, 4), some (3, 4)⟩) ∧
    ((⟨some (3, 4), some (3, 4)⟩ : LB).best = some (3, 4)) ∧
    (∃ j, ∃ hj : j < (([⟨"s1", "T", 1, 2, "d1"⟩, ⟨"s1", "T", 3, 4, "d2"⟩,
          ⟨"s2", "T", 9, 10, "d3"⟩, ⟨"s1", "T", 3, 4, "d4"⟩] :
            List Entry).filter (fun e => e.set_id == "s1")).length,
      ((([⟨"s1", "T", 1, 2, "d1"⟩, ⟨"s1", "T", 3, 4, "d2"⟩,
          ⟨"s2", "T", 9, 10, "d3"⟩, ⟨"s1", "T", 3, 4, "d4"⟩] :
            List Entry).filter (fun e => e.set_id == "s1"))[j]).score = 3 ∧
      ((([⟨"s1", "T", 1, 2, "d1"⟩, ⟨"s1", "T", 3, 4, "d2"⟩,
          ⟨"s2", "T", 9, 10, "d3"⟩, ⟨"s1", "T", 3, 4, "d4"⟩] :
            List Entry).filter (fun e => e.set_id == "s1"))[j]).total = 4 ∧
      (∀ i, ∀ hi : i < (([⟨"s1", "T", 1, 2, "d1"⟩, ⟨"s1", "T", 3, 4, "d2"⟩,
          ⟨"s2", "T", 9, 10, "d3"⟩, ⟨"s1", "T", 3, 4, "d4"⟩] :
            List Entry).filter (fun e => e.set_id == "s1")).length,
        i < j →
        entryRatio (([⟨"s1", "T", 1, 2, "d1"⟩, ⟨"s1", "T", 3, 4, "d2"⟩,
          ⟨"s2", "T", 9, 10, "d3"⟩, ⟨"s1", "T", 3, 4, "d4"⟩] :
            List Entry).filter (fun e => e.set_id == "s1"))[i]
          < entryRatio (([⟨"s1", "T", 1, 2, "d1"⟩, ⟨"s1", "T", 3, 4, "d2"⟩,
          ⟨"s2", "T", 9, 10, "d3"⟩, ⟨"s1", "T", 3, 4, "d4"⟩] :
            List Entry).filter (fun e => e.set_id == "s1"))[j]) ∧
      (∀ i, ∀ hi : i < (([⟨"s1", "T", 1, 2, "d1"⟩, ⟨"s1", "T", 3, 4, "d2"⟩,
          ⟨"s2", "T", 9, 10, "d3"⟩, ⟨"s1", "T", 3, 4, "d4"⟩] :
            List Entry).filter (fun e => e.set_id == "s1")).length,
        entryRatio (([⟨"s1", "T", 1, 2, "d1"⟩, ⟨"s1", "T", 3, 4, "d2"⟩,
          ⟨"s2", "T", 9, 10, "d3"⟩, ⟨"s1", "T", 3, 4, "d4"⟩] :
            List Entry).filter (fun e => e.set_id == "s1"))[i]
          ≤ entryRatio (([⟨"s1", "T", 1, 2, "d1"⟩, ⟨"s1", "T", 3, 4, "d2"⟩,
          ⟨"s2", "T", 9, 10, "d3"⟩, ⟨"s1", "T", 3, 4, "d4"⟩] :
            List Entry).filter (fun e => e.set_id == "s1"))[j])) :=
  ⟨rfl, rfl, rfl,
    get_last_and_best_best_spec ["s1"]
      [⟨"s1", "T", 1, 2, "d1"⟩, ⟨"s1", "T", 3, 4, "d2"⟩,
        ⟨"s2", "T", 9, 10, "d3"⟩, ⟨"s1", "T", 3, 4, "d4"⟩]
      [("s1", ⟨some (3, 4), some (3, 4)⟩),
        ("all", ⟨none, none⟩),
        ("s2", ⟨some (9, 10), some (9, 10)⟩)]
      "s1" ⟨some (3, 4), some (3, 4)⟩ 3 4 rfl rfl rfl⟩

end Quiz
